import Mathlib

/-!
Verification of the two project-file patching scripts in
`Whishpermate/fix_project_python.py` and `Whishpermate/fix_project_v2.py`.

Both scripts read one text file, compute two MD5-derived identifiers, and
perform regular-expression substitutions whose patterns are fully escaped,
i.e. literal strings with the matched text re-emitted via capture groups.
We model file contents as `List Char` and model `re.sub` / `re.subn` with a
literal pattern as leftmost, non-overlapping replace-all (`subn` below).
-/

namespace Whispermate

/-- File contents, modelled as a list of characters. -/
abbrev Str := List Char

/-- Boolean test that `p` is a leading segment of `s`. -/
def pfxb : Str → Str → Bool
  | [], _ => true
  | _ :: _, [] => false
  | a :: as, b :: bs => a == b && pfxb as bs

/-- Proposition that `p` is a leading segment of `s`. -/
def IsPfx (p s : Str) : Prop := ∃ r, s = p ++ r

/-- Proposition that `p` is a trailing segment of `s`. -/
def IsSfx (p s : Str) : Prop := ∃ l, s = l ++ p

/-- Proposition that `q` occurs as a contiguous substring of `s` (Python's `q in s`). -/
def Sub (q s : Str) : Prop := ∃ u v, s = u ++ (q ++ v)

/-- Boolean substring test, scanning left to right. -/
def occursb (q : Str) : Str → Bool
  | [] => q.isEmpty
  | c :: rest => pfxb q (c :: rest) || occursb q rest

/-- Recursion core of `subn`, with explicit fuel so that it is structurally
recursive (the fuel bounds the scan length; a match consumes at least one
character, so `fuel = s.length` never runs out). -/
def subnGo (pat rep : Str) : Nat → Str → Str × Nat
  | _, [] => ([], 0)
  | 0, s => (s, 0)
  | fuel + 1, c :: rest =>
    if pat ≠ [] ∧ pfxb pat (c :: rest) = true then
      ((rep ++ (subnGo pat rep fuel ((c :: rest).drop pat.length)).1),
        (subnGo pat rep fuel ((c :: rest).drop pat.length)).2 + 1)
    else
      (c :: (subnGo pat rep fuel rest).1, (subnGo pat rep fuel rest).2)

/-- Model of Python `re.subn(pat, rep, s)` for a *literal*, nonempty pattern:
replaces every leftmost non-overlapping occurrence of `pat` by `rep`,
returning the new string and the number of replacements.  (All patterns in
the scripts are fully escaped literals whose replacement re-emits the
captured text, so each substitution is of this literal form.) -/
def subn (pat rep s : Str) : Str × Nat := subnGo pat rep s.length s

/-- Model of Python `re.sub(pat, rep, s)` for a literal pattern. -/
def sub1 (pat rep s : Str) : Str := (subn pat rep s).1

theorem subnGo_fuel {pat rep : Str} :
    ∀ (f₁ f₂ : Nat) (s : Str), s.length ≤ f₁ → s.length ≤ f₂ →
      subnGo pat rep f₁ s = subnGo pat rep f₂ s := by
  intro f₁
  induction f₁ with
  | zero =>
    intro f₂ s h1 h2
    cases s with
    | nil => cases f₂ <;> rfl
    | cons c rest => simp at h1
  | succ g ih =>
    intro f₂ s h1 h2
    cases s with
    | nil => cases f₂ <;> rfl
    | cons c rest =>
      cases f₂ with
      | zero => simp at h2
      | succ g₂ =>
        simp only [subnGo]
        by_cases h : pat ≠ [] ∧ pfxb pat (c :: rest) = true
        · have hp : 0 < pat.length := List.length_pos.mpr h.1
          have hd : ((c :: rest).drop pat.length).length ≤ g := by
            simp only [List.length_drop, List.length_cons]
            simp only [List.length_cons] at h1
            omega
          have hd₂ : ((c :: rest).drop pat.length).length ≤ g₂ := by
            simp only [List.length_drop, List.length_cons]
            simp only [List.length_cons] at h2
            omega
          rw [if_pos h, if_pos h, ih g₂ _ hd hd₂]
        · have hr : rest.length ≤ g := by
            simp only [List.length_cons] at h1
            omega
          have hr₂ : rest.length ≤ g₂ := by
            simp only [List.length_cons] at h2
            omega
          rw [if_neg h, if_neg h, ih g₂ rest hr hr₂]

theorem pfxb_iff {p s : Str} : pfxb p s = true ↔ IsPfx p s := by
  induction p generalizing s with
  | nil => simp [pfxb, IsPfx]
  | cons a as ih =>
    cases s with
    | nil =>
      simp only [pfxb, IsPfx, Bool.false_eq_true, false_iff]
      rintro ⟨r, hr⟩
      exact List.cons_ne_nil _ _ ((List.append_eq_nil).mp hr.symm).1
    | cons b bs =>
      simp only [pfxb, Bool.and_eq_true, beq_iff_eq, ih, IsPfx]
      constructor
      · rintro ⟨rfl, r, rfl⟩
        exact ⟨r, rfl⟩
      · rintro ⟨r, hr⟩
        rw [List.cons_append] at hr
        injection hr with h1 h2
        exact ⟨h1.symm, r, h2⟩

theorem IsPfx.lenLe {p s : Str} (h : IsPfx p s) : p.length ≤ s.length := by
  obtain ⟨r, rfl⟩ := h
  simp

theorem isPfx_refl (s : Str) : IsPfx s s := ⟨[], by simp⟩

theorem isPfx_nil (s : Str) : IsPfx [] s := ⟨s, rfl⟩

theorem IsPfx.extendRight {p s : Str} (t : Str) (h : IsPfx p s) :
    IsPfx p (s ++ t) := by
  obtain ⟨r, rfl⟩ := h
  exact ⟨r ++ t, by simp⟩

theorem isPfx_append (p t : Str) : IsPfx p (p ++ t) := ⟨t, rfl⟩

/-- A leading segment of `a ++ b` is a leading segment of `a`, or extends `a`
and its overhang is a leading segment of `b`. -/
theorem isPfx_append_cases {q a b : Str} (h : IsPfx q (a ++ b)) :
    (IsPfx q a) ∨ (IsPfx a q ∧ IsPfx (q.drop a.length) b) := by
  induction a generalizing q with
  | nil =>
    right
    exact ⟨isPfx_nil _, by simpa using h⟩
  | cons c a' ih =>
    cases q with
    | nil => exact Or.inl (isPfx_nil _)
    | cons d q' =>
      obtain ⟨r, hr⟩ := h
      rw [List.cons_append, List.cons_append] at hr
      injection hr with h1 h2
      rcases ih ⟨r, h2⟩ with hp | ⟨⟨r', hr'⟩, hp2⟩
      · left
        obtain ⟨r', hr'⟩ := hp
        exact ⟨r', by rw [List.cons_append, h1, hr']⟩
      · right
        refine ⟨⟨r', by rw [List.cons_append, ← h1, hr']⟩, ?_⟩
        simpa using hp2

theorem IsSfx.sLenLe {p s : Str} (h : IsSfx p s) : p.length ≤ s.length := by
  obtain ⟨l, rfl⟩ := h
  simp

theorem isSfx_refl (s : Str) : IsSfx s s := ⟨[], by simp⟩

theorem IsSfx.extendLeft {p s : Str} (t : Str) (h : IsSfx p s) :
    IsSfx p (t ++ s) := by
  obtain ⟨l, rfl⟩ := h
  exact ⟨t ++ l, by simp⟩

theorem isSfx_append (l p : Str) : IsSfx p (l ++ p) := ⟨l, rfl⟩

theorem Sub.transSub {a b c : Str} (h1 : Sub a b) (h2 : Sub b c) : Sub a c := by
  obtain ⟨u, v, rfl⟩ := h1
  obtain ⟨x, y, rfl⟩ := h2
  exact ⟨x ++ u, v ++ y, by simp⟩

theorem sub_refl (s : Str) : Sub s s := ⟨[], [], by simp⟩

theorem Sub.append_left {q s : Str} (t : Str) (h : Sub q s) : Sub q (t ++ s) := by
  obtain ⟨u, v, rfl⟩ := h
  exact ⟨t ++ u, v, by simp⟩

theorem Sub.append_right {q s : Str} (t : Str) (h : Sub q s) : Sub q (s ++ t) := by
  obtain ⟨u, v, rfl⟩ := h
  exact ⟨u, v ++ t, by simp⟩

theorem Sub.cons {q s : Str} (c : Char) (h : Sub q s) : Sub q (c :: s) := by
  simpa using h.append_left [c]

theorem IsPfx.toSub {q s : Str} (h : IsPfx q s) : Sub q s := by
  obtain ⟨r, rfl⟩ := h
  exact ⟨[], r, rfl⟩

theorem IsSfx.toSubS {q s : Str} (h : IsSfx q s) : Sub q s := by
  obtain ⟨l, rfl⟩ := h
  exact ⟨l, [], by simp⟩

theorem sub_nil_iff {q : Str} : Sub q [] ↔ q = [] := by
  constructor
  · rintro ⟨u, v, h⟩
    rcases List.append_eq_nil.mp h.symm with ⟨rfl, h2⟩
    exact (List.append_eq_nil.mp h2).1
  · rintro rfl
    exact sub_refl []

theorem sub_cons_cases {q s : Str} {c : Char} (h : Sub q (c :: s)) :
    IsPfx q (c :: s) ∨ Sub q s := by
  obtain ⟨u, v, hu⟩ := h
  cases u with
  | nil => exact Or.inl ⟨v, by simpa using hu⟩
  | cons d u' =>
    right
    rw [List.cons_append] at hu
    obtain ⟨-, h2⟩ := List.cons.injEq .. ▸ hu
    exact ⟨u', v, h2⟩

theorem occursb_iff {q s : Str} : occursb q s = true ↔ Sub q s := by
  induction s with
  | nil =>
    simp only [occursb, List.isEmpty_iff, sub_nil_iff]
  | cons c rest ih =>
    simp only [occursb, Bool.or_eq_true, pfxb_iff, ih]
    constructor
    · rintro (h | h)
      · exact h.toSub
      · exact h.cons c
    · intro h
      rcases sub_cons_cases h with h | h
      · exact Or.inl h
      · exact Or.inr h

/-- Splitting a substring occurrence across an append: it lies in the left
part, in the right part, or spans the seam. -/
theorem sub_append_cases {q a b : Str} (h : Sub q (a ++ b)) :
    Sub q a ∨ Sub q b ∨
      ∃ k, 0 < k ∧ k < q.length ∧ IsSfx (q.take k) a ∧ IsPfx (q.drop k) b := by
  induction a with
  | nil => simp at h; exact Or.inr (Or.inl h)
  | cons c a' ih =>
    rw [List.cons_append] at h
    rcases sub_cons_cases h with h | h
    · rcases isPfx_append_cases (a := c :: a') h with h | ⟨h1, h2⟩
      · exact Or.inl h.toSub
      · obtain ⟨r, rfl⟩ := h1
        cases r with
        | nil =>
          left
          rw [List.append_nil]
          exact sub_refl _
        | cons e r' =>
          right; right
          refine ⟨(c :: a').length, by simp, by simp, ?_, ?_⟩
          · rw [List.take_left]
            exact isSfx_refl _
          · rw [List.drop_left]
            simpa [List.drop_left] using h2
    · rcases ih h with h | h | ⟨k, hk1, hk2, hk3, hk4⟩
      · exact Or.inl (h.cons c)
      · exact Or.inr (Or.inl h)
      · exact Or.inr (Or.inr ⟨k, hk1, hk2, hk3.extendLeft [c], hk4⟩)

/-- Building a substring occurrence that spans an append seam. -/
theorem sub_span_intro {q a b x y : Str} (hq : q = x ++ y)
    (hx : IsSfx x a) (hy : IsPfx y b) : Sub q (a ++ b) := by
  obtain ⟨l, rfl⟩ := hx
  obtain ⟨r, rfl⟩ := hy
  exact ⟨l, r, by simp [hq]⟩

theorem IsPfx.transPfx {a b c : Str} (h1 : IsPfx a b) (h2 : IsPfx b c) : IsPfx a c := by
  obtain ⟨r, rfl⟩ := h1
  obtain ⟨s, rfl⟩ := h2
  exact ⟨r ++ s, by simp⟩

theorem isPfx_cons {p s : Str} (c : Char) (h : IsPfx p s) : IsPfx (c :: p) (c :: s) := by
  obtain ⟨r, rfl⟩ := h
  exact ⟨r, rfl⟩

theorem pfxb_drop {pat s : Str} (h : pfxb pat s = true) :
    s = pat ++ s.drop pat.length := by
  obtain ⟨r, rfl⟩ := pfxb_iff.mp h
  rw [List.drop_left]

theorem subn_nil (pat rep : Str) : subn pat rep [] = ([], 0) := rfl

theorem subn_cons_match {pat rep : Str} {c : Char} {rest : Str}
    (h : pat ≠ []) (hp : pfxb pat (c :: rest) = true) :
    subn pat rep (c :: rest) =
      (rep ++ (subn pat rep ((c :: rest).drop pat.length)).1,
        (subn pat rep ((c :: rest).drop pat.length)).2 + 1) := by
  have hlen : 0 < pat.length := List.length_pos.mpr h
  show subnGo pat rep (rest.length + 1) (c :: rest) = _
  simp only [subnGo, if_pos (And.intro h hp)]
  rw [subnGo_fuel rest.length ((c :: rest).drop pat.length).length
    ((c :: rest).drop pat.length)
    (by simp only [List.length_drop, List.length_cons]; omega) (le_refl _)]
  rfl

theorem subn_cons_nomatch {pat rep : Str} {c : Char} {rest : Str}
    (h : ¬ (pat ≠ [] ∧ pfxb pat (c :: rest) = true)) :
    subn pat rep (c :: rest) =
      (c :: (subn pat rep rest).1, (subn pat rep rest).2) := by
  show subnGo pat rep (rest.length + 1) (c :: rest) = _
  simp only [subnGo, if_neg h]
  rfl

/-- Concatenation of the pieces `us`, separated by `sep`. -/
def icat (sep : Str) : List Str → Str
  | [] => []
  | [u] => u
  | u :: v :: us => u ++ sep ++ icat sep (v :: us)

@[simp] theorem icat_nil (sep : Str) : icat sep [] = [] := rfl

@[simp] theorem icat_single (sep u : Str) : icat sep [u] = u := rfl

theorem icat_cons₂ (sep u v : Str) (us : List Str) :
    icat sep (u :: v :: us) = u ++ sep ++ icat sep (v :: us) := rfl

theorem icat_cons_cons (sep : Str) (c : Char) (u : Str) (us : List Str) :
    icat sep ((c :: u) :: us) = c :: icat sep (u :: us) := by
  cases us with
  | nil => rfl
  | cons v us' => simp [icat_cons₂]

theorem isPfx_icat_head (sep u : Str) (us : List Str) :
    IsPfx u (icat sep (u :: us)) := by
  cases us with
  | nil => exact isPfx_refl u
  | cons v us' =>
    rw [icat_cons₂, List.append_assoc]
    exact isPfx_append u _

theorem mem_icat_sub {sep u : Str} {us : List Str} (h : u ∈ us) :
    Sub u (icat sep us) := by
  induction us with
  | nil => cases h
  | cons v us' ih =>
    cases us' with
    | nil =>
      rcases List.mem_singleton.mp h with rfl
      exact sub_refl u
    | cons w us'' =>
      rw [icat_cons₂, List.append_assoc]
      rcases List.mem_cons.mp h with rfl | h'
      · exact (isPfx_append u _).toSub
      · exact ((ih h').append_left sep).append_left v

/-- Every run of `subn` decomposes its input as pieces separated by `pat`,
its output as the same pieces separated by `rep`, its count as the number of
separators, with no `pat` occurrence inside any piece. -/
theorem subn_decomp (pat rep : Str) (hpat : pat ≠ []) (t : Str) :
    ∃ us : List Str, us ≠ [] ∧
      t = icat pat us ∧
      (subn pat rep t).1 = icat rep us ∧
      (subn pat rep t).2 = us.length - 1 ∧
      ∀ u ∈ us, ¬ Sub pat u := by
  generalize hL : t.length = n
  induction n using Nat.strong_induction_on generalizing t with
  | _ n ih =>
  cases t with
  | nil =>
    refine ⟨[[]], by simp, by simp, by simp [subn_nil], by simp [subn_nil], ?_⟩
    intro u hu
    rcases List.mem_singleton.mp hu with rfl
    rw [sub_nil_iff]
    exact hpat
  | cons c rest =>
    by_cases hm : pfxb pat (c :: rest) = true
    · -- a match at the head: consume `pat`, recurse on the remainder
      have hsplit : c :: rest = pat ++ (c :: rest).drop pat.length := pfxb_drop hm
      have hlen : ((c :: rest).drop pat.length).length < n := by
        have hp : 0 < pat.length := List.length_pos.mpr hpat
        simp only [List.length_cons] at hL
        simp only [List.length_drop, List.length_cons]
        omega
      obtain ⟨us', hne', ht', hout', hcnt', hsub'⟩ :=
        ih _ hlen ((c :: rest).drop pat.length) rfl
      cases us' with
      | nil => exact absurd rfl hne'
      | cons u us'' =>
        refine ⟨[] :: u :: us'', by simp, ?_, ?_, ?_, ?_⟩
        · rw [icat_cons₂, List.nil_append, ← ht', ← hsplit]
        · rw [subn_cons_match hpat hm, hout', icat_cons₂, List.nil_append]
        · rw [subn_cons_match hpat hm, hcnt']
          simp
        · intro w hw
          rcases List.mem_cons.mp hw with rfl | hw'
          · rw [sub_nil_iff]; exact hpat
          · exact hsub' w hw'
    · -- no match at the head: emit `c`, recurse on the tail
      have hlen : rest.length < n := by simp only [List.length_cons] at hL; omega
      obtain ⟨us', hne', ht', hout', hcnt', hsub'⟩ := ih _ hlen rest rfl
      cases us' with
      | nil => exact absurd rfl hne'
      | cons u us'' =>
        have hnm : ¬ (pat ≠ [] ∧ pfxb pat (c :: rest) = true) := by
          intro hx; exact hm hx.2
        refine ⟨(c :: u) :: us'', by simp, ?_, ?_, ?_, ?_⟩
        · rw [icat_cons_cons, ← ht']
        · rw [subn_cons_nomatch hnm, hout', icat_cons_cons]
        · rw [subn_cons_nomatch hnm, hcnt']
          simp
        · intro w hw
          rcases List.mem_cons.mp hw with rfl | hw'
          · intro hsubc
            rcases sub_cons_cases hsubc with hpf | hsubu
            · -- `pat` would be a leading segment of the whole input
              have : IsPfx pat (c :: rest) := by
                have h2 : IsPfx (c :: u) (c :: rest) := by
                  rw [ht']
                  exact isPfx_cons c (isPfx_icat_head pat u us'')
                exact hpf.transPfx h2
              exact hm (pfxb_iff.mpr this)
            · exact hsub' u (List.mem_cons_self u us'') hsubu
          · exact hsub' w (List.mem_cons_of_mem u hw')

theorem icat_length (sep u : Str) (us : List Str) :
    (icat sep (u :: us)).length =
      ((u :: us).map List.length).sum + us.length * sep.length := by
  induction us generalizing u with
  | nil => simp
  | cons v us' ih =>
    rw [icat_cons₂]
    simp only [List.length_append, ih v, List.map_cons, List.sum_cons, List.length_cons]
    ring

theorem count_icat (ch : Char) (sep u : Str) (us : List Str) :
    (icat sep (u :: us)).count ch =
      ((u :: us).map (List.count ch)).sum + us.length * sep.count ch := by
  induction us generalizing u with
  | nil => simp
  | cons v us' ih =>
    rw [icat_cons₂]
    simp only [List.count_append, ih v, List.map_cons, List.sum_cons, List.length_cons]
    ring

theorem sub_sep_icat {sep : Str} {us : List Str} (h : 2 ≤ us.length) :
    Sub sep (icat sep us) := by
  match us, h with
  | u :: v :: us'', _ =>
    rw [icat_cons₂, List.append_assoc]
    exact ((sub_refl sep).append_right _).append_left u

/-- A substitution with no match is a no-op with count zero. -/
theorem subn_no_match {pat rep t : Str} (hpat : pat ≠ []) (h : ¬ Sub pat t) :
    subn pat rep t = (t, 0) := by
  obtain ⟨us, hne, ht, hout, hcnt, -⟩ := subn_decomp pat rep hpat t
  match us, hne, ht, hout, hcnt with
  | [u], _, ht, hout, hcnt =>
    simp only [icat_single] at ht hout
    rw [Prod.ext_iff, hout, hcnt, ht]
    exact ⟨rfl, rfl⟩
  | u :: v :: us'', _, ht, hout, hcnt =>
    exact absurd (ht ▸ sub_sep_icat (by simp)) h

/-- The count returned by `subn` is positive exactly when the pattern occurs. -/
theorem subn_count_pos {pat rep t : Str} (hpat : pat ≠ []) :
    0 < (subn pat rep t).2 ↔ Sub pat t := by
  constructor
  · intro h
    by_contra hs
    rw [subn_no_match hpat hs] at h
    exact absurd h (by simp)
  · intro h
    obtain ⟨us, hne, ht, hout, hcnt, hpieces⟩ := subn_decomp pat rep hpat t
    match us, hne, ht, hcnt, hpieces with
    | [u], _, ht, hcnt, hpieces =>
      exact absurd (by simpa [ht] using h) (hpieces u (by simp))
    | u :: v :: us'', _, ht, hcnt, hpieces =>
      rw [hcnt]
      simp

/-- Length accounting for `subn`: each replacement trades `pat.length`
characters for `rep.length` characters. -/
theorem subn_length (pat rep t : Str) (hpat : pat ≠ []) :
    (subn pat rep t).1.length + (subn pat rep t).2 * pat.length =
      t.length + (subn pat rep t).2 * rep.length := by
  obtain ⟨us, hne, ht, hout, hcnt, -⟩ := subn_decomp pat rep hpat t
  match us, hne, ht, hout, hcnt with
  | u :: us', _, ht, hout, hcnt =>
    rw [hout, hcnt, ht, icat_length, icat_length]
    simp only [List.length_cons, Nat.add_sub_cancel]
    ring

/-- Character-count accounting for `subn`. -/
theorem subn_count_char (ch : Char) (pat rep t : Str) (hpat : pat ≠ []) :
    (subn pat rep t).1.count ch + (subn pat rep t).2 * pat.count ch =
      t.count ch + (subn pat rep t).2 * rep.count ch := by
  obtain ⟨us, hne, ht, hout, hcnt, -⟩ := subn_decomp pat rep hpat t
  match us, hne, ht, hout, hcnt with
  | u :: us', _, ht, hout, hcnt =>
    rw [hout, hcnt, ht, count_icat, count_icat]
    simp only [List.length_cons, Nat.add_sub_cancel]
    ring

/-- When the replacement is at least as long as the pattern, `subn` never
shrinks the text. -/
theorem subn_length_mono {pat rep : Str} (t : Str) (hpat : pat ≠ [])
    (hlen : pat.length ≤ rep.length) :
    t.length ≤ (subn pat rep t).1.length := by
  have h := subn_length pat rep t hpat
  have h2 : (subn pat rep t).2 * pat.length ≤ (subn pat rep t).2 * rep.length :=
    Nat.mul_le_mul_left _ hlen
  omega

/-- When the replacement is strictly longer than the pattern, the output
differs from the input exactly when the count is positive. -/
theorem subn_ne_iff {pat rep t : Str} (hpat : pat ≠ [])
    (hlen : pat.length < rep.length) :
    (subn pat rep t).1 ≠ t ↔ 0 < (subn pat rep t).2 := by
  constructor
  · intro h
    rcases Nat.eq_zero_or_pos (subn pat rep t).2 with hz | hp
    · by_contra
      have hns : ¬ Sub pat t := by
        intro hs
        have := (@subn_count_pos pat rep t hpat).mpr hs
        omega
      rw [subn_no_match hpat hns] at h
      exact h rfl
    · exact hp
  · intro h hc
    have hL := subn_length pat rep t hpat
    rw [hc] at hL
    have : (subn pat rep t).2 * pat.length < (subn pat rep t).2 * rep.length :=
      mul_lt_mul_of_pos_left hlen h
    omega

/-- If `q` does not occur inside `sep`, no trailing part of `q` starts
`sep`, no leading part of `q` ends `sep`, and `q` is no longer than `sep`,
then an occurrence of `q` in an interleaving lies inside one of the
pieces. -/
theorem sub_icat_cases {sep q : Str} (us : List Str)
    (hlen : q.length ≤ sep.length)
    (h1 : ¬ Sub q sep)
    (h2 : ∀ k, 0 < k → k < q.length → ¬ IsPfx (q.drop k) sep)
    (h3 : ∀ k, 0 < k → k < q.length → ¬ IsSfx (q.take k) sep) :
    Sub q (icat sep us) → ∃ u ∈ us, Sub q u := by
  induction us with
  | nil =>
    intro h
    rw [icat_nil, sub_nil_iff] at h
    subst h
    exact absurd ⟨[], sep, by simp⟩ h1
  | cons u us' ih =>
    cases us' with
    | nil =>
      intro h
      exact ⟨u, by simp, by simpa using h⟩
    | cons v us'' =>
      intro h
      rw [icat_cons₂, List.append_assoc] at h
      rcases sub_append_cases h with h | h | ⟨k, hk1, hk2, hk3, hk4⟩
      · exact ⟨u, by simp, h⟩
      · rcases sub_append_cases h with h | h | ⟨k, hk1, hk2, hk3, hk4⟩
        · exact absurd h h1
        · obtain ⟨w, hw, hsub⟩ := ih h
          exact ⟨w, List.mem_cons_of_mem u hw, hsub⟩
        · exact absurd hk3 (h3 k hk1 hk2)
      · rcases isPfx_append_cases hk4 with hp | ⟨hp1, hp2⟩
        · exact absurd hp (h2 k hk1 hk2)
        · have := hp1.lenLe
          simp only [List.length_drop] at this
          omega

/-- After a substitution the pattern no longer occurs anywhere, provided the
pattern cannot overlap the replacement text. -/
theorem subn_no_pat {pat rep t : Str} (hpat : pat ≠ [])
    (hlen : pat.length ≤ rep.length)
    (h1 : ¬ Sub pat rep)
    (h2 : ∀ k, 0 < k → k < pat.length → ¬ IsPfx (pat.drop k) rep)
    (h3 : ∀ k, 0 < k → k < pat.length → ¬ IsSfx (pat.take k) rep) :
    ¬ Sub pat (subn pat rep t).1 := by
  intro h
  obtain ⟨us, hne, htd, hout, hcnt, hpieces⟩ := subn_decomp pat rep hpat t
  rw [hout] at h
  obtain ⟨u, hu, hsub⟩ := sub_icat_cases us hlen h1 h2 h3 h
  exact hpieces u hu hsub

/-- A substitution cannot create an occurrence of `q` from nothing when `q`
cannot overlap the replacement text. -/
theorem subn_no_new {pat rep q t : Str} (hpat : pat ≠ [])
    (hlen : q.length ≤ rep.length)
    (h1 : ¬ Sub q rep)
    (h2 : ∀ k, 0 < k → k < q.length → ¬ IsPfx (q.drop k) rep)
    (h3 : ∀ k, 0 < k → k < q.length → ¬ IsSfx (q.take k) rep)
    (ht : ¬ Sub q t) :
    ¬ Sub q (subn pat rep t).1 := by
  intro h
  obtain ⟨us, hne, htd, hout, hcnt, hpieces⟩ := subn_decomp pat rep hpat t
  rw [hout] at h
  obtain ⟨u, hu, hsub⟩ := sub_icat_cases us hlen h1 h2 h3 h
  refine ht ?_
  rw [htd]
  exact hsub.transSub (mem_icat_sub hu)

/-- If the pattern occurs, the replacement text occurs in the output. -/
theorem subn_rep_sub {pat rep t : Str} (hpat : pat ≠ []) (h : Sub pat t) :
    Sub rep (subn pat rep t).1 := by
  obtain ⟨us, hne, htd, hout, hcnt, hpieces⟩ := subn_decomp pat rep hpat t
  rw [hout]
  match us, hne, htd, hpieces with
  | [u], _, htd, hpieces =>
    rw [icat_single] at htd
    exact absurd (htd ▸ h) (hpieces u (by simp))
  | u :: v :: us'', _, _, _ =>
    exact sub_sep_icat (by simp)

theorem isPfx_A_of_le {y A B : Str} (h : IsPfx y (A ++ B))
    (hl : y.length ≤ A.length) : IsPfx y A := by
  rcases isPfx_append_cases h with h | ⟨h1, -⟩
  · exact h
  · obtain ⟨r, rfl⟩ := h1
    have : r = [] := by
      have := hl
      simp only [List.length_append] at this
      exact List.eq_nil_of_length_eq_zero (by omega)
    subst this
    rw [List.append_nil]
    exact isPfx_refl A

theorem isSfx_B_of_le {x A B : Str} (h : IsSfx x (A ++ B))
    (hl : x.length ≤ B.length) : IsSfx x B := by
  obtain ⟨l, hcat⟩ := h
  have hlen : A.length + B.length = l.length + x.length := by
    have := congrArg List.length hcat
    simpa using this
  refine ⟨l.drop A.length, ?_⟩
  have := congrArg (List.drop A.length) hcat
  rw [List.drop_left] at this
  rw [this, List.drop_append_of_le_length (by omega)]

theorem isPfx_append_both {u r X : Str} (h : IsPfx r X) :
    IsPfx (u ++ r) (u ++ X) := by
  obtain ⟨w, rfl⟩ := h
  exact ⟨w, by simp⟩

/-- Transfer of a short leading segment from the `A ++ B` interleaving to the
`A ++ ins ++ B` interleaving. -/
theorem isPfx_icat_transfer {A B ins : Str} (us : List Str) {y : Str}
    (hy : y.length < (A ++ B).length) (hyA : y.length ≤ A.length) :
    IsPfx y (icat (A ++ B) us) → IsPfx y (icat (A ++ ins ++ B) us) := by
  cases us with
  | nil => simp
  | cons u us' =>
    cases us' with
    | nil => simp
    | cons v us'' =>
      intro h
      rw [icat_cons₂, List.append_assoc] at h
      rw [icat_cons₂, List.append_assoc]
      rcases isPfx_append_cases h with h | ⟨h1, h2⟩
      · exact h.extendRight _
      · obtain ⟨r, rfl⟩ := h1
        rw [List.drop_left] at h2
        apply isPfx_append_both
        rcases isPfx_append_cases h2 with h2 | ⟨h21, -⟩
        · have hr : IsPfx r A := isPfx_A_of_le h2 (by
            simp only [List.length_append] at hyA
            omega)
          exact ((hr.extendRight ins).extendRight B).extendRight _
        · exfalso
          have := h21.lenLe
          simp only [List.length_append] at this hy hyA
          omega

/-- Transfer of occurrences of a short `q` from the `A ++ B` interleaving to
the `A ++ ins ++ B` interleaving. -/
theorem sub_icat_transfer {A B ins q : Str} (us : List Str)
    (hql : q.length < (A ++ B).length)
    (hqA : q.length ≤ A.length + 1)
    (hqB : q.length ≤ B.length + 1)
    (hqpat : ¬ Sub q (A ++ B)) :
    Sub q (icat (A ++ B) us) → Sub q (icat (A ++ ins ++ B) us) := by
  induction us with
  | nil => simp
  | cons u us' ih =>
    cases us' with
    | nil =>
      intro h
      simpa using h
    | cons v us'' =>
      intro h
      rw [icat_cons₂, List.append_assoc] at h
      rw [icat_cons₂, List.append_assoc]
      rcases sub_append_cases h with h | h | ⟨k, hk1, hk2, hk3, hk4⟩
      · exact h.append_right _
      · rcases sub_append_cases h with h | h | ⟨k, hk1, hk2, hk3, hk4⟩
        · exact absurd h hqpat
        · exact ((ih h).append_left _).append_left u
        · -- spans the seam between the separator and the following pieces
          apply Sub.append_left u
          refine sub_span_intro (List.take_append_drop k q).symm ?_ ?_
          · have hsfx : IsSfx (q.take k) B := by
              refine isSfx_B_of_le hk3 ?_
              have : (q.take k).length = k := by
                simp only [List.length_take]
                omega
              omega
            exact hsfx.extendLeft (A ++ ins)
          · refine isPfx_icat_transfer _ ?_ ?_ hk4
            · simp only [List.length_drop]
              omega
            · simp only [List.length_drop]
              omega
      · -- spans the seam between the first piece and the rest
        rcases isPfx_append_cases hk4 with hp | ⟨hp1, -⟩
        · have hpfx : IsPfx (q.drop k) A := by
            refine isPfx_A_of_le hp ?_
            simp only [List.length_drop]
            omega
          refine sub_span_intro (List.take_append_drop k q).symm hk3 ?_
          exact ((hpfx.extendRight ins).extendRight B).extendRight _
        · have := hp1.lenLe
          simp only [List.length_drop, List.length_append] at this hql
          omega

/-- Occurrences of a short `q` that cannot contain the pattern survive a
substitution whose replacement keeps the pattern's two halves. -/
theorem subn_sub_preserved {A B ins q t : Str} (hpat : A ++ B ≠ [])
    (hql : q.length < (A ++ B).length)
    (hqA : q.length ≤ A.length + 1)
    (hqB : q.length ≤ B.length + 1)
    (hqpat : ¬ Sub q (A ++ B)) (h : Sub q t) :
    Sub q (subn (A ++ B) (A ++ ins ++ B) t).1 := by
  obtain ⟨us, hne, htd, hout, hcnt, hpieces⟩ := subn_decomp _ _ hpat t
  rw [hout]
  exact sub_icat_transfer us hql hqA hqB hqpat (htd ▸ h)

/-!
### MD5 (RFC 1321)

Model of Python's `hashlib.md5` as used by both scripts: bytes are `Nat`s
below 256, 32-bit words are `Nat`s reduced mod `2 ^ 32`.
-/

def md5K : List Nat := [
  3614090360, 3905402710, 606105819, 3250441966, 4118548399, 1200080426, 2821735955, 4249261313,
  1770035416, 2336552879, 4294925233, 2304563134, 1804603682, 4254626195, 2792965006, 1236535329,
  4129170786, 3225465664, 643717713, 3921069994, 3593408605, 38016083, 3634488961, 3889429448,
  568446438, 3275163606, 4107603335, 1163531501, 2850285829, 4243563512, 1735328473, 2368359562,
  4294588738, 2272392833, 1839030562, 4259657740, 2763975236, 1272893353, 4139469664, 3200236656,
  681279174, 3936430074, 3572445317, 76029189, 3654602809, 3873151461, 530742520, 3299628645,
  4096336452, 1126891415, 2878612391, 4237533241, 1700485571, 2399980690, 4293915773, 2240044497,
  1873313359, 4264355552, 2734768916, 1309151649, 4149444226, 3174756917, 718787259, 3951481745
]

def md5S : List Nat := [
  7, 12, 17, 22, 7, 12, 17, 22,
  7, 12, 17, 22, 7, 12, 17, 22,
  5, 9, 14, 20, 5, 9, 14, 20,
  5, 9, 14, 20, 5, 9, 14, 20,
  4, 11, 16, 23, 4, 11, 16, 23,
  4, 11, 16, 23, 4, 11, 16, 23,
  6, 10, 15, 21, 6, 10, 15, 21,
  6, 10, 15, 21, 6, 10, 15, 21
]

def w32 (n : Nat) : Nat := n % 4294967296

def rotl32 (x n : Nat) : Nat := x % 2 ^ (32 - n) * 2 ^ n + x / 2 ^ (32 - n)

def md5Round (M : List Nat) (st : Nat × Nat × Nat × Nat) (i : Nat) :
    Nat × Nat × Nat × Nat :=
  let (a, b, c, d) := st
  let f :=
    if i < 16 then b &&& c ||| (4294967295 ^^^ b) &&& d
    else if i < 32 then d &&& b ||| (4294967295 ^^^ d) &&& c
    else if i < 48 then b ^^^ c ^^^ d
    else c ^^^ (b ||| (4294967295 ^^^ d))
  let g :=
    if i < 16 then i
    else if i < 32 then (5 * i + 1) % 16
    else if i < 48 then (3 * i + 5) % 16
    else 7 * i % 16
  (d, w32 (b + rotl32 (w32 (a + f + md5K.getD i 0 + M.getD g 0)) (md5S.getD i 0)), b, c)

def md5Words (blk : List Nat) : List Nat :=
  (List.range 16).map fun j =>
    blk.getD (4 * j) 0 + 256 * blk.getD (4 * j + 1) 0 +
      65536 * blk.getD (4 * j + 2) 0 + 16777216 * blk.getD (4 * j + 3) 0

def md5Block (st : Nat × Nat × Nat × Nat) (blk : List Nat) : Nat × Nat × Nat × Nat :=
  let r := (List.range 64).foldl (md5Round (md5Words blk)) st
  (w32 (st.1 + r.1), w32 (st.2.1 + r.2.1), w32 (st.2.2.1 + r.2.2.1), w32 (st.2.2.2 + r.2.2.2))

def chunksGo : Nat → List Nat → List (List Nat)
  | _, [] => []
  | 0, _ :: _ => []
  | fuel + 1, x :: rest => (x :: rest).take 64 :: chunksGo fuel ((x :: rest).drop 64)

def chunks64 (l : List Nat) : List (List Nat) := chunksGo l.length l

def md5Pad (msg : List Nat) : List Nat :=
  msg ++ 128 :: List.replicate ((119 - msg.length % 64) % 64) 0 ++
    (List.range 8).map fun i => 8 * msg.length / 2 ^ (8 * i) % 256

def md5Digest (msg : List Nat) : List Nat :=
  let st := (chunks64 (md5Pad msg)).foldl md5Block
    (1732584193, 4023233417, 2562383102, 271733878)
  ([st.1, st.2.1, st.2.2.1, st.2.2.2].map fun w =>
    [w % 256, w / 256 % 256, w / 65536 % 256, w / 16777216 % 256]).flatten

def hexChar (n : Nat) : Char := "0123456789abcdef".toList.getD n '0'

def md5Hex (msg : List Nat) : List Char :=
  ((md5Digest msg).map fun b => [hexChar (b / 16), hexChar (b % 16)]).flatten

def strBytes (s : String) : List Nat := s.toList.map Char.toNat

/-- Mirror of `hashlib.md5(b'WhisperMateIOSInfoPlistException').hexdigest()[:24].upper()`
(lines 10 of both scripts). -/
def ios_uuid : Str :=
  ((md5Hex (strBytes "WhisperMateIOSInfoPlistException")).take 24).map Char.toUpper

/-- Mirror of `hashlib.md5(b'WhisperMateKeyboardInfoPlistException').hexdigest()[:24].upper()`
(lines 11 of both scripts). -/
def keyboard_uuid : Str :=
  ((md5Hex (strBytes "WhisperMateKeyboardInfoPlistException")).take 24).map Char.toUpper

/-!
### The text constants of the two scripts

All regular expressions in both scripts are fully escaped, so each is a
literal string; the patterns with two capture groups are recorded as their
two halves `..A../..B..`, with the replacement `\1<inserted>\2` recorded as
the inserted middle `..Ins..`.
-/

/-- The literal text matched by `exception_section_pattern` (both scripts). -/
def excMarker : Str := "/* Begin PBXFileSystemSynchronizedBuildFileExceptionSet section */\n".toList

def ios_exception : Str :=
  "\t\t".toList ++ ios_uuid ++
    " /* Exceptions for \"WhisperMateIOS\" folder in \"WhisperMateIOS\" target */ = \x7b\n\t\t\tisa = PBXFileSystemSynchronizedBuildFileExceptionSet;\n\t\t\tmembershipExceptions = (\n\t\t\t\tInfo.plist,\n\t\t\t);\n\t\t\ttarget = C1E7D2ED2EBA92A500A07338 /* WhisperMateIOS */;\n\t\t\x7d;\n".toList

def keyboard_exception : Str :=
  "\t\t".toList ++ keyboard_uuid ++
    " /* Exceptions for \"WhisperMateKeyboard\" folder in \"WhisperMateKeyboard\" target */ = \x7b\n\t\t\tisa = PBXFileSystemSynchronizedBuildFileExceptionSet;\n\t\t\tmembershipExceptions = (\n\t\t\t\tInfo.plist,\n\t\t\t);\n\t\t\ttarget = C1E7D3042EBA92C900A07338 /* WhisperMateKeyboard */;\n\t\t\x7d;\n".toList

def iosGroupA1 : Str :=
  "C1E7D2EF2EBA92A500A07338 /* WhisperMateIOS */ = \x7b\n\t\t\tisa = PBXFileSystemSynchronizedRootGroup;\n\t\t\texceptions = (\n".toList

def iosGroupB1 : Str :=
  "\t\t\t);".toList

def kbGroupA1 : Str :=
  "C1E7D3062EBA92C900A07338 /* WhisperMateKeyboard */ = \x7b\n\t\t\tisa = PBXFileSystemSynchronizedRootGroup;\n\t\t\texceptions = (\n".toList

def kbGroupB1 : Str :=
  "\t\t\t);".toList

def iosGroupA2 : Str :=
  "C1E7D2EF2EBA92A500A07338 /* WhisperMateIOS */ = \x7b\n\t\t\tisa = PBXFileSystemSynchronizedRootGroup;\n".toList

def iosGroupB2 : Str :=
  "\t\t\tpath = WhisperMateIOS;".toList

def kbGroupA2 : Str :=
  "C1E7D3062EBA92C900A07338 /* WhisperMateKeyboard */ = \x7b\n\t\t\tisa = PBXFileSystemSynchronizedRootGroup;\n".toList

def kbGroupB2 : Str :=
  "\t\t\tpath = WhisperMateKeyboard;".toList

def iosGroupIns1 : Str :=
  "\t\t\t\t".toList ++ ios_uuid ++
    " /* Exceptions for \"WhisperMateIOS\" folder in \"WhisperMateIOS\" target */,\n".toList

def kbGroupIns1 : Str :=
  "\t\t\t\t".toList ++ keyboard_uuid ++
    " /* Exceptions for \"WhisperMateKeyboard\" folder in \"WhisperMateKeyboard\" target */,\n".toList

def iosGroupIns2 : Str :=
  "\t\t\texceptions = (\n\t\t\t\t".toList ++ ios_uuid ++
    " /* Exceptions for \"WhisperMateIOS\" folder in \"WhisperMateIOS\" target */,\n\t\t\t);\n".toList

def kbGroupIns2 : Str :=
  "\t\t\texceptions = (\n\t\t\t\t".toList ++ keyboard_uuid ++
    " /* Exceptions for \"WhisperMateKeyboard\" folder in \"WhisperMateKeyboard\" target */,\n\t\t\t);\n".toList

/-- Replacement for the exception-section marker: `\1` followed by the two
exception entries (line 37 / line 39 of the scripts). -/
def excRep : Str := excMarker ++ ios_exception ++ keyboard_exception

/-!
### The two scripts, as content transformations
-/

/-- Model of `fix_project_python.py`: three unguarded `re.sub` calls in order
(marker insertion, iOS group, Keyboard group), then write-back. -/
def runV1 (content : Str) : Str :=
  let c1 := (subn excMarker excRep content).1
  let c2 := (subn (iosGroupA1 ++ iosGroupB1) (iosGroupA1 ++ iosGroupIns1 ++ iosGroupB1) c1).1
  (subn (kbGroupA1 ++ kbGroupB1) (kbGroupA1 ++ kbGroupIns1 ++ kbGroupB1) c2).1

/-- Step 1 of `fix_project_v2.py`: the exception-entry insertion guarded by
`if ios_uuid not in content`. -/
def v2Step1 (content : Str) : Str :=
  if occursb ios_uuid content then content else (subn excMarker excRep content).1

/-- Result of one run of `fix_project_v2.py`: final content plus the
branch/count information that drives its printed messages. -/
structure V2Run where
  out : Str
  /-- Whether the script printed `Added exception entries`
  (rather than `Exceptions already exist`). -/
  addedMsg : Bool
  /-- count returned by `re.subn` on the iOS group pattern;
  `Updated iOS group` is printed iff it is positive. -/
  iosSubs : Nat
  /-- count returned by `re.subn` on the Keyboard group pattern;
  `Updated Keyboard group` is printed iff it is positive. -/
  kbSubs : Nat
  deriving DecidableEq

/-- Model of `fix_project_v2.py`: guarded marker insertion, then the two `re.subn`
group substitutions, then write-back. -/
def runV2 (content : Str) : V2Run :=
  let c1 := v2Step1 content
  let r2 := subn (iosGroupA2 ++ iosGroupB2) (iosGroupA2 ++ iosGroupIns2 ++ iosGroupB2) c1
  let r3 := subn (kbGroupA2 ++ kbGroupB2) (kbGroupA2 ++ kbGroupIns2 ++ kbGroupB2) r2.1
  ⟨r3.1, !(occursb ios_uuid content), r2.2, r3.2⟩

/-- The single hardcoded path both scripts read and write. -/
def projectPath : Str := "Whispermate.xcodeproj/project.pbxproj".toList

/-- A filesystem: a map from paths to file contents. -/
def FS : Type := Str → Option Str

/-- Effect of running `fix_project_python.py` in a filesystem: if the
project file is missing, `open` raises and nothing is written; otherwise the
patched content is written back to the same path. -/
def runV1FS (fs : FS) : FS :=
  match fs projectPath with
  | none => fs
  | some content => fun p => if p = projectPath then some (runV1 content) else fs p

/-- Effect of running `fix_project_v2.py` in a filesystem. -/
def runV2FS (fs : FS) : FS :=
  match fs projectPath with
  | none => fs
  | some content => fun p => if p = projectPath then some (runV2 content).out else fs p

/-!
### Concrete values of the identifier-bearing constants
-/

set_option maxRecDepth 10000 in
theorem ios_uuid_eq : ios_uuid = "F95672A58E2ECD9E4CDB3B69".toList := by decide

set_option maxRecDepth 10000 in
theorem keyboard_uuid_eq : keyboard_uuid = "C81B7759167FB0165A37C015".toList := by decide

set_option maxRecDepth 4000 in
theorem ios_exception_eq : ios_exception =
    "\t\tF95672A58E2ECD9E4CDB3B69 /* Exceptions for \"WhisperMateIOS\" folder in \"WhisperMateIOS\" target */ = \x7b\n\t\t\tisa = PBXFileSystemSynchronizedBuildFileExceptionSet;\n\t\t\tmembershipExceptions = (\n\t\t\t\tInfo.plist,\n\t\t\t);\n\t\t\ttarget = C1E7D2ED2EBA92A500A07338 /* WhisperMateIOS */;\n\t\t\x7d;\n".toList := by
  unfold ios_exception
  rw [ios_uuid_eq]
  decide

set_option maxRecDepth 4000 in
theorem keyboard_exception_eq : keyboard_exception =
    "\t\tC81B7759167FB0165A37C015 /* Exceptions for \"WhisperMateKeyboard\" folder in \"WhisperMateKeyboard\" target */ = \x7b\n\t\t\tisa = PBXFileSystemSynchronizedBuildFileExceptionSet;\n\t\t\tmembershipExceptions = (\n\t\t\t\tInfo.plist,\n\t\t\t);\n\t\t\ttarget = C1E7D3042EBA92C900A07338 /* WhisperMateKeyboard */;\n\t\t\x7d;\n".toList := by
  unfold keyboard_exception
  rw [keyboard_uuid_eq]
  decide

set_option maxRecDepth 4000 in
theorem iosGroupIns1_eq : iosGroupIns1 =
    "\t\t\t\tF95672A58E2ECD9E4CDB3B69 /* Exceptions for \"WhisperMateIOS\" folder in \"WhisperMateIOS\" target */,\n".toList := by
  unfold iosGroupIns1
  rw [ios_uuid_eq]
  decide

set_option maxRecDepth 4000 in
theorem kbGroupIns1_eq : kbGroupIns1 =
    "\t\t\t\tC81B7759167FB0165A37C015 /* Exceptions for \"WhisperMateKeyboard\" folder in \"WhisperMateKeyboard\" target */,\n".toList := by
  unfold kbGroupIns1
  rw [keyboard_uuid_eq]
  decide

set_option maxRecDepth 4000 in
theorem iosGroupIns2_eq : iosGroupIns2 =
    "\t\t\texceptions = (\n\t\t\t\tF95672A58E2ECD9E4CDB3B69 /* Exceptions for \"WhisperMateIOS\" folder in \"WhisperMateIOS\" target */,\n\t\t\t);\n".toList := by
  unfold iosGroupIns2
  rw [ios_uuid_eq]
  decide

set_option maxRecDepth 4000 in
theorem kbGroupIns2_eq : kbGroupIns2 =
    "\t\t\texceptions = (\n\t\t\t\tC81B7759167FB0165A37C015 /* Exceptions for \"WhisperMateKeyboard\" folder in \"WhisperMateKeyboard\" target */,\n\t\t\t);\n".toList := by
  unfold kbGroupIns2
  rw [keyboard_uuid_eq]
  decide

set_option maxRecDepth 4000 in
theorem excRep_eq : excRep =
    "/* Begin PBXFileSystemSynchronizedBuildFileExceptionSet section */\n\t\tF95672A58E2ECD9E4CDB3B69 /* Exceptions for \"WhisperMateIOS\" folder in \"WhisperMateIOS\" target */ = \x7b\n\t\t\tisa = PBXFileSystemSynchronizedBuildFileExceptionSet;\n\t\t\tmembershipExceptions = (\n\t\t\t\tInfo.plist,\n\t\t\t);\n\t\t\ttarget = C1E7D2ED2EBA92A500A07338 /* WhisperMateIOS */;\n\t\t\x7d;\n\t\tC81B7759167FB0165A37C015 /* Exceptions for \"WhisperMateKeyboard\" folder in \"WhisperMateKeyboard\" target */ = \x7b\n\t\t\tisa = PBXFileSystemSynchronizedBuildFileExceptionSet;\n\t\t\tmembershipExceptions = (\n\t\t\t\tInfo.plist,\n\t\t\t);\n\t\t\ttarget = C1E7D3042EBA92C900A07338 /* WhisperMateKeyboard */;\n\t\t\x7d;\n".toList := by
  unfold excRep excMarker
  rw [ios_exception_eq, keyboard_exception_eq]
  decide

/-!
### Bridges from boolean checks on the concrete constants to the side
conditions of the overlap lemmas
-/

/-- Boolean test that `p` is a trailing segment of `s`. -/
def sfxb (p s : Str) : Bool := pfxb p.reverse s.reverse

theorem sfxb_iff {p s : Str} : sfxb p s = true ↔ IsSfx p s := by
  unfold sfxb
  rw [pfxb_iff]
  constructor
  · rintro ⟨r, hr⟩
    refine ⟨r.reverse, ?_⟩
    have := congrArg List.reverse hr
    simpa using this
  · rintro ⟨l, rfl⟩
    exact ⟨l.reverse, by simp⟩

theorem not_sub_of_occursb {q s : Str} (h : occursb q s = false) : ¬ Sub q s := by
  intro hs
  rw [← occursb_iff, h] at hs
  exact Bool.false_ne_true hs

theorem sub_of_occursb {q s : Str} (h : occursb q s = true) : Sub q s :=
  occursb_iff.mp h

theorem no_pfx_drop_of_all {q rep : Str}
    (h : ((List.range q.length).all fun k => k == 0 || !(pfxb (q.drop k) rep)) = true) :
    ∀ k, 0 < k → k < q.length → ¬ IsPfx (q.drop k) rep := by
  intro k hk1 hk2 hp
  have hk := List.all_eq_true.mp h k (List.mem_range.mpr hk2)
  rw [Bool.or_eq_true, beq_iff_eq, Bool.not_eq_true'] at hk
  rcases hk with rfl | hf
  · omega
  · rw [pfxb_iff.mpr hp] at hf
    exact absurd hf (by simp)

theorem no_sfx_take_of_all {q rep : Str}
    (h : ((List.range q.length).all fun k => k == 0 || !(sfxb (q.take k) rep)) = true) :
    ∀ k, 0 < k → k < q.length → ¬ IsSfx (q.take k) rep := by
  intro k hk1 hk2 hp
  have hk := List.all_eq_true.mp h k (List.mem_range.mpr hk2)
  rw [Bool.or_eq_true, beq_iff_eq, Bool.not_eq_true'] at hk
  rcases hk with rfl | hf
  · omega
  · rw [sfxb_iff.mpr hp] at hf
    exact absurd hf (by simp)

/-!
### Bracket balance
-/

/-- Signed count of openers minus closers. -/
def bdelta (o c : Char) (s : Str) : Int := (s.count o : Int) - (s.count c : Int)

theorem bdelta_append (o c : Char) (a b : Str) :
    bdelta o c (a ++ b) = bdelta o c a + bdelta o c b := by
  simp only [bdelta, List.count_append]
  push_cast
  ring

/-- Properly balanced for one bracket pair: no leading segment closes more
than it opens, and the totals agree. -/
def Balanced (o c : Char) (s : Str) : Prop :=
  (∀ p, IsPfx p s → 0 ≤ bdelta o c p) ∧ bdelta o c s = 0

theorem bdelta_cons (o c x : Char) (p : Str) :
    bdelta o c (x :: p) =
      (if x == o then (1 : Int) else 0) - (if x == c then 1 else 0) +
        bdelta o c p := by
  simp only [bdelta, List.count_cons]
  push_cast
  by_cases h1 : x == o <;> by_cases h2 : x == c <;> simp [h1, h2] <;> ring

/-- Single left-to-right scan checking that every leading segment has
nonnegative delta, carrying the running delta. -/
def prefScanOK (o c : Char) : Int → Str → Bool
  | _, [] => true
  | d, x :: rest =>
    decide (0 ≤ d + ((if x == o then (1 : Int) else 0) - (if x == c then 1 else 0))) &&
      prefScanOK o c (d + ((if x == o then (1 : Int) else 0) - (if x == c then 1 else 0)))
        rest

/-- Boolean check that every leading segment has nonnegative delta. -/
def prefOKb (o c : Char) (s : Str) : Bool := prefScanOK o c 0 s

theorem prefScanOK_spec {o c : Char} :
    ∀ (s : Str) (d : Int), 0 ≤ d → prefScanOK o c d s = true →
      ∀ p, IsPfx p s → 0 ≤ d + bdelta o c p := by
  intro s
  induction s with
  | nil =>
    intro d hd _ p hp
    have hpn : p = [] := by
      obtain ⟨r, hr⟩ := hp
      exact (List.append_eq_nil.mp hr.symm).1
    subst hpn
    simpa [bdelta] using hd
  | cons x rest ih =>
    intro d hd hscan p hp
    rw [prefScanOK, Bool.and_eq_true, decide_eq_true_iff] at hscan
    obtain ⟨hd2, hrest⟩ := hscan
    cases p with
    | nil => simpa [bdelta] using hd
    | cons y p' =>
      obtain ⟨r, hr⟩ := hp
      rw [List.cons_append] at hr
      injection hr with h1 h2
      subst h1
      have hrec := ih _ hd2 hrest p' ⟨r, h2⟩
      rw [bdelta_cons]
      linarith

theorem prefOKb_spec {o c : Char} {s : Str} (h : prefOKb o c s = true) :
    ∀ p, IsPfx p s → 0 ≤ bdelta o c p := by
  intro p hp
  have := prefScanOK_spec s 0 (le_refl 0) h p hp
  simpa using this

theorem isPfx_append_split {q a b : Str} (h : IsPfx q (a ++ b)) :
    IsPfx q a ∨ ∃ r, q = a ++ r ∧ IsPfx r b := by
  rcases isPfx_append_cases h with h | ⟨h1, h2⟩
  · exact Or.inl h
  · obtain ⟨r, rfl⟩ := h1
    rw [List.drop_left] at h2
    exact Or.inr ⟨r, rfl, h2⟩

/-- Every leading segment of the `A ++ ins ++ B` interleaving dominates some
leading segment of the `A ++ B` interleaving in signed bracket count,
provided the inserted middle is balanced with nonnegative leading
segments. -/
theorem bdelta_pfx_icat {o c : Char} {A B ins : Str} (us : List Str)
    (h0 : bdelta o c ins = 0)
    (hp : ∀ p, IsPfx p ins → 0 ≤ bdelta o c p) :
    ∀ q, IsPfx q (icat (A ++ ins ++ B) us) →
      ∃ p, IsPfx p (icat (A ++ B) us) ∧ bdelta o c p ≤ bdelta o c q := by
  induction us with
  | nil =>
    intro q hq
    exact ⟨q, by simpa using hq, le_refl _⟩
  | cons u us' ih =>
    cases us' with
    | nil =>
      intro q hq
      exact ⟨q, by simpa using hq, le_refl _⟩
    | cons v us'' =>
      intro q hq
      rw [icat_cons₂] at hq
      rcases isPfx_append_split hq with hq | ⟨rB, rfl, hrB⟩
      · rcases isPfx_append_split hq with hq | ⟨r, rfl, hr⟩
        · refine ⟨q, ?_, le_refl _⟩
          rw [icat_cons₂]
          obtain ⟨w, hw⟩ := hq
          exact ⟨w ++ (A ++ B) ++ icat (A ++ B) (v :: us''),
            by rw [hw]; simp [List.append_assoc]⟩
        · rcases isPfx_append_split hr with hr | ⟨rI, rfl, hrI⟩
          · rcases isPfx_append_split hr with hr | ⟨rA, rfl, hrA⟩
            · refine ⟨u ++ r, ?_, le_refl _⟩
              rw [icat_cons₂]
              obtain ⟨w, hw⟩ := hr
              exact ⟨w ++ B ++ icat (A ++ B) (v :: us''),
                by rw [hw]; simp [List.append_assoc]⟩
            · refine ⟨u ++ A, ?_, ?_⟩
              · rw [icat_cons₂]
                exact ⟨B ++ icat (A ++ B) (v :: us''), by simp [List.append_assoc]⟩
              · have hd := hp rA hrA
                simp only [bdelta_append]
                linarith
          · refine ⟨u ++ (A ++ rI), ?_, ?_⟩
            · rw [icat_cons₂]
              obtain ⟨w, hw⟩ := hrI
              exact ⟨w ++ icat (A ++ B) (v :: us''),
                by rw [hw]; simp [List.append_assoc]⟩
            · simp only [bdelta_append]
              linarith
      · obtain ⟨p', hp', hle⟩ := ih rB hrB
        refine ⟨(u ++ (A ++ B)) ++ p', ?_, ?_⟩
        · rw [icat_cons₂]
          obtain ⟨w, hw⟩ := hp'
          exact ⟨w, by rw [hw]; simp [List.append_assoc]⟩
        · simp only [bdelta_append]
          linarith

/-- A substitution whose inserted middle is balanced preserves bracket
balance. -/
theorem balanced_subn {o c : Char} {A B ins t : Str} (hpat : A ++ B ≠ [])
    (h0 : bdelta o c ins = 0)
    (hp : ∀ p, IsPfx p ins → 0 ≤ bdelta o c p)
    (hb : Balanced o c t) :
    Balanced o c (subn (A ++ B) (A ++ ins ++ B) t).1 := by
  obtain ⟨us, hne, htd, hout, hcnt, -⟩ := subn_decomp _ _ hpat t
  constructor
  · intro p hpfx
    rw [hout] at hpfx
    obtain ⟨p', hp', hle⟩ := bdelta_pfx_icat us h0 hp p hpfx
    have h2 := hb.1 p' (by rw [htd]; exact hp')
    linarith
  · have hco := subn_count_char o (A ++ B) (A ++ ins ++ B) t hpat
    have hcc := subn_count_char c (A ++ B) (A ++ ins ++ B) t hpat
    have hrepo : (A ++ ins ++ B).count o = (A ++ B).count o + ins.count o := by
      simp only [List.count_append]
      ring
    have hrepc : (A ++ ins ++ B).count c = (A ++ B).count c + ins.count c := by
      simp only [List.count_append]
      ring
    have hins : ins.count o = ins.count c := by
      unfold bdelta at h0
      omega
    have htot := hb.2
    unfold bdelta at htot ⊢
    rw [hrepo, mul_add] at hco
    rw [hrepc, mul_add] at hcc
    set n := (subn (A ++ B) (A ++ ins ++ B) t).2 with hn
    set x1 := n * (A ++ B).count o with hx1
    set x2 := n * ins.count o with hx2
    set x3 := n * (A ++ B).count c with hx3
    set x4 := n * ins.count c with hx4
    have hx24 : x2 = x4 := by rw [hx2, hx4, hins]
    omega


/-!
### Evaluation helpers
-/

theorem subn_head_match {pat rep : Str} (t : Str) (h : pat ≠ []) :
    subn pat rep (pat ++ t) = (rep ++ (subn pat rep t).1, (subn pat rep t).2 + 1) := by
  match pat, h with
  | c :: p', h =>
    rw [List.cons_append]
    have hpfx : pfxb (c :: p') (c :: (p' ++ t)) = true := by
      rw [pfxb_iff]
      exact ⟨t, by simp⟩
    rw [subn_cons_match h hpfx]
    have hd : (c :: (p' ++ t)).drop (c :: p').length = t := by
      simp only [List.length_cons, List.drop_succ_cons]
      exact List.drop_left p' t
    rw [hd]

set_option maxRecDepth 16000 in
theorem runV1_on_marker : runV1 excMarker = excRep := by
  have hm : subn excMarker excRep excMarker = (excRep ++ [], 1) := by
    have h := @subn_head_match excMarker excRep [] (by decide)
    rw [List.append_nil] at h
    simpa [subn_nil] using h
  have h2 : (subn (iosGroupA1 ++ iosGroupB1)
      (iosGroupA1 ++ iosGroupIns1 ++ iosGroupB1) excRep) = (excRep, 0) :=
    subn_no_match (by decide) (not_sub_of_occursb (by rw [excRep_eq]; decide))
  have h3 : (subn (kbGroupA1 ++ kbGroupB1)
      (kbGroupA1 ++ kbGroupIns1 ++ kbGroupB1) excRep) = (excRep, 0) :=
    subn_no_match (by decide) (not_sub_of_occursb (by rw [excRep_eq]; decide))
  simp only [runV1, hm, List.append_nil, h2, h3]

set_option maxRecDepth 16000 in
theorem runV1_on_patched :
    runV1 excRep = excRep ++ (ios_exception ++ keyboard_exception) := by
  have hshape : excRep = excMarker ++ (ios_exception ++ keyboard_exception) := by
    unfold excRep
    rw [List.append_assoc]
  have hE : subn excMarker excRep (ios_exception ++ keyboard_exception) =
      (ios_exception ++ keyboard_exception, 0) :=
    subn_no_match (by decide)
      (not_sub_of_occursb (by rw [ios_exception_eq, keyboard_exception_eq]; decide))
  have hm : subn excMarker excRep excRep =
      (excRep ++ (ios_exception ++ keyboard_exception), 1) := by
    nth_rewrite 2 [hshape]
    rw [subn_head_match _ (by decide), hE]
  have h2 : (subn (iosGroupA1 ++ iosGroupB1)
      (iosGroupA1 ++ iosGroupIns1 ++ iosGroupB1)
      (excRep ++ (ios_exception ++ keyboard_exception))) =
      (excRep ++ (ios_exception ++ keyboard_exception), 0) :=
    subn_no_match (by decide) (not_sub_of_occursb
      (by rw [excRep_eq, ios_exception_eq, keyboard_exception_eq]; decide))
  have h3 : (subn (kbGroupA1 ++ kbGroupB1)
      (kbGroupA1 ++ kbGroupIns1 ++ kbGroupB1)
      (excRep ++ (ios_exception ++ keyboard_exception))) =
      (excRep ++ (ios_exception ++ keyboard_exception), 0) :=
    subn_no_match (by decide) (not_sub_of_occursb
      (by rw [excRep_eq, ios_exception_eq, keyboard_exception_eq]; decide))
  simp only [runV1, hm, h2, h3]

/-!
### The claims
-/

/-- C3: the two computed identifiers are deterministic functions of the two
fixed input strings: `ios_uuid` is the first 24 hex digits of
`MD5('WhisperMateIOSInfoPlistException')` uppercased, `keyboard_uuid`
likewise for `'WhisperMateKeyboardInfoPlistException'`, and both are the
same constants in both scripts and on every run. -/
theorem uuid_values :
    ios_uuid = ((md5Hex (strBytes "WhisperMateIOSInfoPlistException")).take 24).map
      Char.toUpper ∧
    keyboard_uuid = ((md5Hex (strBytes "WhisperMateKeyboardInfoPlistException")).take
      24).map Char.toUpper ∧
    ios_uuid = "F95672A58E2ECD9E4CDB3B69".toList ∧
    keyboard_uuid = "C81B7759167FB0165A37C015".toList :=
  ⟨rfl, rfl, ios_uuid_eq, keyboard_uuid_eq⟩

/-- C9: the guard of the second script's exception-entry step tests only the
iOS identifier: whenever `ios_uuid` occurs in the content, the step returns
the content unchanged (so neither exception entry is inserted by it), with
no condition on `keyboard_uuid` at all. -/
theorem v2_guard_only_ios (content : Str) (h : occursb ios_uuid content = true) :
    v2Step1 content = content := by
  unfold v2Step1
  rw [if_pos h]

/-- Witness for C9, on a content that contains `ios_uuid` but not
`keyboard_uuid`. -/
theorem v2_guard_only_ios_witness :
    occursb ios_uuid ios_uuid = true ∧
    occursb keyboard_uuid ios_uuid = false ∧
    v2Step1 ios_uuid = ios_uuid :=
  ⟨by rw [ios_uuid_eq]; decide,
   by rw [ios_uuid_eq, keyboard_uuid_eq]; decide,
   v2_guard_only_ios ios_uuid (by rw [ios_uuid_eq]; decide)⟩

set_option maxRecDepth 16000 in
/-- C10: both scripts only insert text: the written content is never shorter
than the input content. -/
theorem output_never_shorter (content : Str) :
    content.length ≤ (runV1 content).length ∧
    content.length ≤ (runV2 content).out.length := by
  have l1 : excMarker.length ≤ excRep.length := by rw [excRep_eq]; decide
  have l2 : (iosGroupA1 ++ iosGroupB1).length ≤
      (iosGroupA1 ++ iosGroupIns1 ++ iosGroupB1).length := by
    rw [iosGroupIns1_eq]; decide
  have l3 : (kbGroupA1 ++ kbGroupB1).length ≤
      (kbGroupA1 ++ kbGroupIns1 ++ kbGroupB1).length := by
    rw [kbGroupIns1_eq]; decide
  have l4 : (iosGroupA2 ++ iosGroupB2).length ≤
      (iosGroupA2 ++ iosGroupIns2 ++ iosGroupB2).length := by
    rw [iosGroupIns2_eq]; decide
  have l5 : (kbGroupA2 ++ kbGroupB2).length ≤
      (kbGroupA2 ++ kbGroupIns2 ++ kbGroupB2).length := by
    rw [kbGroupIns2_eq]; decide
  constructor
  · calc content.length
        ≤ (subn excMarker excRep content).1.length :=
          subn_length_mono content (by decide) l1
      _ ≤ (subn (iosGroupA1 ++ iosGroupB1) (iosGroupA1 ++ iosGroupIns1 ++ iosGroupB1)
            (subn excMarker excRep content).1).1.length :=
          subn_length_mono _ (by decide) l2
      _ ≤ (runV1 content).length :=
          subn_length_mono _ (by decide) l3
  · have hs1 : content.length ≤ (v2Step1 content).length := by
      unfold v2Step1
      by_cases hg : occursb ios_uuid content = true
      · rw [if_pos hg]
      · rw [if_neg hg]
        exact subn_length_mono content (by decide) l1
    calc content.length
        ≤ (v2Step1 content).length := hs1
      _ ≤ (subn (iosGroupA2 ++ iosGroupB2) (iosGroupA2 ++ iosGroupIns2 ++ iosGroupB2)
            (v2Step1 content)).1.length :=
          subn_length_mono _ (by decide) l4
      _ ≤ (runV2 content).out.length :=
          subn_length_mono _ (by decide) l5

/-- C4: if none of the first script's three patterns occurs in the content,
the script writes the content back unchanged. -/
theorem v1_no_match_no_change (content : Str)
    (h1 : occursb excMarker content = false)
    (h2 : occursb (iosGroupA1 ++ iosGroupB1) content = false)
    (h3 : occursb (kbGroupA1 ++ kbGroupB1) content = false) :
    runV1 content = content := by
  have e1 : (subn excMarker excRep content) = (content, 0) :=
    subn_no_match (by decide) (not_sub_of_occursb h1)
  have e2 : (subn (iosGroupA1 ++ iosGroupB1)
      (iosGroupA1 ++ iosGroupIns1 ++ iosGroupB1) content) = (content, 0) :=
    subn_no_match (by decide) (not_sub_of_occursb h2)
  have e3 : (subn (kbGroupA1 ++ kbGroupB1)
      (kbGroupA1 ++ kbGroupIns1 ++ kbGroupB1) content) = (content, 0) :=
    subn_no_match (by decide) (not_sub_of_occursb h3)
  simp only [runV1, e1, e2, e3]

/-- Witness for C4, on the empty content (no pattern matches there). -/
theorem v1_no_match_no_change_witness :
    occursb excMarker [] = false ∧
    occursb (iosGroupA1 ++ iosGroupB1) [] = false ∧
    occursb (kbGroupA1 ++ kbGroupB1) [] = false ∧
    runV1 [] = [] :=
  ⟨by decide, by decide, by decide,
   v1_no_match_no_change [] (by decide) (by decide) (by decide)⟩

set_option maxRecDepth 16000 in
/-- C2: the first script is not idempotent: on a content consisting of the
exception-section marker, the first run inserts the two exception entries,
and a second run inserts both entry blocks again, duplicating them. -/
theorem v1_not_idempotent :
    runV1 excMarker = excMarker ++ ios_exception ++ keyboard_exception ∧
    runV1 (runV1 excMarker) =
      (excMarker ++ ios_exception ++ keyboard_exception) ++
        (ios_exception ++ keyboard_exception) ∧
    runV1 (runV1 excMarker) ≠ runV1 excMarker := by
  have h1 : runV1 excMarker = excRep := runV1_on_marker
  have h2 : runV1 (runV1 excMarker) = excRep ++ (ios_exception ++ keyboard_exception) := by
    rw [h1]
    exact runV1_on_patched
  refine ⟨h1, h2, ?_⟩
  rw [h2, h1]
  intro heq
  have hlen := congrArg List.length heq
  rw [List.length_append] at hlen
  have hpos : 0 < (ios_exception ++ keyboard_exception).length := by
    rw [ios_exception_eq, keyboard_exception_eq]
    decide
  omega


/-- Step 1 of either script on a content equal to the marker itself. -/
theorem subn_marker_self : (subn excMarker excRep excMarker).1 = excRep := by
  have h := @subn_head_match excMarker excRep [] (by decide)
  rw [List.append_nil] at h
  rw [h, subn_nil]
  simp

/-- C5 counterexample: on the empty content the second script prints the
success message `Added exception entries` (the guard passes) although the
insertion step left the content unchanged — the success message is *not*
equivalent to the substitution having changed the content. -/
theorem v2_success_message_without_change :
    (runV2 []).addedMsg = true ∧ v2Step1 [] = [] ∧ (runV2 []).out = [] ∧
    ¬ ((runV2 []).addedMsg = true ↔ v2Step1 [] ≠ []) := by
  have hocc : occursb ios_uuid [] = false := by rw [ios_uuid_eq]; decide
  have hstep : v2Step1 [] = [] := by
    unfold v2Step1
    rw [if_neg (by simp [hocc]), subn_nil]
  have hmsg : (runV2 []).addedMsg = true := by simp [runV2, hocc]
  refine ⟨hmsg, hstep, ?_, ?_⟩
  · simp only [runV2, hstep, subn_nil]
  · intro hiff
    exact (hiff.mp hmsg) hstep

set_option maxRecDepth 16000 in
/-- C5 as amended: the iOS-group and Keyboard-group messages report success
exactly when their substitution changed the content, while the
exception-entry step prints its success message exactly when `ios_uuid` is
absent from the input — which does not imply that the insertion changed
anything. -/
theorem v2_message_conditions (content : Str) :
    ((runV2 content).addedMsg = true ↔ occursb ios_uuid content = false) ∧
    ((runV2 content).iosSubs ≠ 0 ↔
      (subn (iosGroupA2 ++ iosGroupB2) (iosGroupA2 ++ iosGroupIns2 ++ iosGroupB2)
        (v2Step1 content)).1 ≠ v2Step1 content) ∧
    ((runV2 content).kbSubs ≠ 0 ↔
      (subn (kbGroupA2 ++ kbGroupB2) (kbGroupA2 ++ kbGroupIns2 ++ kbGroupB2)
        (subn (iosGroupA2 ++ iosGroupB2) (iosGroupA2 ++ iosGroupIns2 ++ iosGroupB2)
          (v2Step1 content)).1).1 ≠
      (subn (iosGroupA2 ++ iosGroupB2) (iosGroupA2 ++ iosGroupIns2 ++ iosGroupB2)
        (v2Step1 content)).1) := by
  have hl2 : (iosGroupA2 ++ iosGroupB2).length <
      (iosGroupA2 ++ iosGroupIns2 ++ iosGroupB2).length := by
    rw [iosGroupIns2_eq]; decide
  have hl3 : (kbGroupA2 ++ kbGroupB2).length <
      (kbGroupA2 ++ kbGroupIns2 ++ kbGroupB2).length := by
    rw [kbGroupIns2_eq]; decide
  refine ⟨?_, ?_, ?_⟩
  · simp [runV2, Bool.not_eq_true']
  · have h := subn_ne_iff (t := v2Step1 content) (by decide) hl2
    have h2 : (runV2 content).iosSubs =
        (subn (iosGroupA2 ++ iosGroupB2) (iosGroupA2 ++ iosGroupIns2 ++ iosGroupB2)
          (v2Step1 content)).2 := by
      simp [runV2]
    rw [h2]
    exact Nat.pos_iff_ne_zero.symm.trans h.symm
  · have h := subn_ne_iff
      (t := (subn (iosGroupA2 ++ iosGroupB2) (iosGroupA2 ++ iosGroupIns2 ++ iosGroupB2)
        (v2Step1 content)).1) (by decide) hl3
    have h2 : (runV2 content).kbSubs =
        (subn (kbGroupA2 ++ kbGroupB2) (kbGroupA2 ++ kbGroupIns2 ++ kbGroupB2)
          (subn (iosGroupA2 ++ iosGroupB2) (iosGroupA2 ++ iosGroupIns2 ++ iosGroupB2)
            (v2Step1 content)).1).2 := by
      simp [runV2]
    rw [h2]
    exact Nat.pos_iff_ne_zero.symm.trans h.symm

set_option maxRecDepth 16000 in
/-- C6: no rollback on partial failure: when the marker matches but none of
the group patterns does, both scripts still write the partially modified
content (the marker insertion), which differs from the input. -/
theorem no_rollback (content : Str)
    (h1 : occursb excMarker content = true)
    (h2 : occursb ios_uuid content = false)
    (h3 : occursb (iosGroupA1 ++ iosGroupB1) (subn excMarker excRep content).1 = false)
    (h4 : occursb (kbGroupA1 ++ kbGroupB1) (subn excMarker excRep content).1 = false)
    (h5 : occursb (iosGroupA2 ++ iosGroupB2) (subn excMarker excRep content).1 = false)
    (h6 : occursb (kbGroupA2 ++ kbGroupB2) (subn excMarker excRep content).1 = false) :
    runV1 content = (subn excMarker excRep content).1 ∧
    runV1 content ≠ content ∧
    (runV2 content).out = (subn excMarker excRep content).1 ∧
    (runV2 content).out ≠ content := by
  have hlenm : excMarker.length < excRep.length := by rw [excRep_eq]; decide
  have hdiff : (subn excMarker excRep content).1 ≠ content := by
    rw [subn_ne_iff (by decide) hlenm]
    exact (subn_count_pos (by decide)).mpr (sub_of_occursb h1)
  have e2 : (subn (iosGroupA1 ++ iosGroupB1)
      (iosGroupA1 ++ iosGroupIns1 ++ iosGroupB1) (subn excMarker excRep content).1) =
      ((subn excMarker excRep content).1, 0) :=
    subn_no_match (by decide) (not_sub_of_occursb h3)
  have e3 : (subn (kbGroupA1 ++ kbGroupB1)
      (kbGroupA1 ++ kbGroupIns1 ++ kbGroupB1) (subn excMarker excRep content).1) =
      ((subn excMarker excRep content).1, 0) :=
    subn_no_match (by decide) (not_sub_of_occursb h4)
  have hstep : v2Step1 content = (subn excMarker excRep content).1 := by
    unfold v2Step1
    rw [if_neg (by simp [h2])]
  have e5 : (subn (iosGroupA2 ++ iosGroupB2)
      (iosGroupA2 ++ iosGroupIns2 ++ iosGroupB2) (subn excMarker excRep content).1) =
      ((subn excMarker excRep content).1, 0) :=
    subn_no_match (by decide) (not_sub_of_occursb h5)
  have e6 : (subn (kbGroupA2 ++ kbGroupB2)
      (kbGroupA2 ++ kbGroupIns2 ++ kbGroupB2) (subn excMarker excRep content).1) =
      ((subn excMarker excRep content).1, 0) :=
    subn_no_match (by decide) (not_sub_of_occursb h6)
  have hv1 : runV1 content = (subn excMarker excRep content).1 := by
    simp only [runV1, e2, e3]
  have hv2 : (runV2 content).out = (subn excMarker excRep content).1 := by
    simp only [runV2, hstep, e5, e6]
  exact ⟨hv1, hv1 ▸ hdiff, hv2, hv2 ▸ hdiff⟩

set_option maxRecDepth 16000 in
/-- Witness for C6, on a content equal to the marker: the insertion fires,
the four group patterns do not match the result, and both scripts write the
changed content back. -/
theorem no_rollback_witness :
    occursb excMarker excMarker = true ∧
    occursb ios_uuid excMarker = false ∧
    occursb (iosGroupA1 ++ iosGroupB1) (subn excMarker excRep excMarker).1 = false ∧
    occursb (kbGroupA1 ++ kbGroupB1) (subn excMarker excRep excMarker).1 = false ∧
    occursb (iosGroupA2 ++ iosGroupB2) (subn excMarker excRep excMarker).1 = false ∧
    occursb (kbGroupA2 ++ kbGroupB2) (subn excMarker excRep excMarker).1 = false ∧
    runV1 excMarker ≠ excMarker ∧ (runV2 excMarker).out ≠ excMarker := by
  have hh3 : occursb (iosGroupA1 ++ iosGroupB1) (subn excMarker excRep excMarker).1 =
      false := by rw [subn_marker_self, excRep_eq]; decide
  have hh4 : occursb (kbGroupA1 ++ kbGroupB1) (subn excMarker excRep excMarker).1 =
      false := by rw [subn_marker_self, excRep_eq]; decide
  have hh5 : occursb (iosGroupA2 ++ iosGroupB2) (subn excMarker excRep excMarker).1 =
      false := by rw [subn_marker_self, excRep_eq]; decide
  have hh6 : occursb (kbGroupA2 ++ kbGroupB2) (subn excMarker excRep excMarker).1 =
      false := by rw [subn_marker_self, excRep_eq]; decide
  have hh1 : occursb excMarker excMarker = true := by decide
  have hh2 : occursb ios_uuid excMarker = false := by rw [ios_uuid_eq]; decide
  have h := no_rollback excMarker hh1 hh2 hh3 hh4 hh5 hh6
  exact ⟨hh1, hh2, hh3, hh4, hh5, hh6, h.2.1, h.2.2.2⟩

/-- C7: each script touches exactly the one hardcoded path
`Whispermate.xcodeproj/project.pbxproj`: every other path is left unchanged,
and the result at that path depends only on that path's prior content. -/
theorem single_file_effect (fs fs' : FS) (p : Str) :
    (p ≠ projectPath → runV1FS fs p = fs p ∧ runV2FS fs p = fs p) ∧
    (fs projectPath = fs' projectPath →
      runV1FS fs projectPath = runV1FS fs' projectPath ∧
      runV2FS fs projectPath = runV2FS fs' projectPath) := by
  constructor
  · intro hp
    unfold runV1FS runV2FS
    cases hfs : fs projectPath with
    | none => exact ⟨rfl, rfl⟩
    | some content => exact ⟨by simp [hp], by simp [hp]⟩
  · intro heq
    unfold runV1FS runV2FS
    rw [← heq]
    cases hfs : fs projectPath with
    | none => exact ⟨heq, heq⟩
    | some content => simp

/-- Witness for C7: a path other than the project path is untouched, and
two filesystems agreeing on the project path produce the same written
file. -/
theorem single_file_effect_witness :
    (runV1FS (fun _ => none) "x".toList = (fun _ => none : FS) "x".toList) ∧
    (runV2FS (fun _ => none) "x".toList = (fun _ => none : FS) "x".toList) ∧
    (runV1FS (fun _ => some []) projectPath =
      runV1FS (fun q => if q = projectPath then some [] else none) projectPath) ∧
    (runV2FS (fun _ => some []) projectPath =
      runV2FS (fun q => if q = projectPath then some [] else none) projectPath) := by
  have h1 := single_file_effect (fun _ => none) (fun _ => none) "x".toList
  have h2 := single_file_effect (fun _ => some [])
    (fun q => if q = projectPath then some [] else none) projectPath
  have hagree : (fun _ => some ([] : Str)) projectPath =
      (fun q => if q = projectPath then some [] else none) projectPath := by
    simp
  exact ⟨(h1.1 (by decide)).1, (h1.1 (by decide)).2, (h2.2 hagree).1, (h2.2 hagree).2⟩


/-- Run of `fix_project_python.py` preserves balance of one bracket pair whenever
all three inserted texts are balanced with nonnegative leading segments. -/
theorem balanced_runV1 {o c : Char} {content : Str}
    (hE0 : bdelta o c (ios_exception ++ keyboard_exception) = 0)
    (hEp : prefOKb o c (ios_exception ++ keyboard_exception) = true)
    (h10 : bdelta o c iosGroupIns1 = 0)
    (h1p : prefOKb o c iosGroupIns1 = true)
    (h20 : bdelta o c kbGroupIns1 = 0)
    (h2p : prefOKb o c kbGroupIns1 = true)
    (hb : Balanced o c content) : Balanced o c (runV1 content) := by
  have hrw : subn excMarker excRep content =
      subn (excMarker ++ []) (excMarker ++ (ios_exception ++ keyboard_exception) ++ [])
        content := by
    rw [List.append_nil, List.append_nil]
    unfold excRep
    rw [List.append_assoc]
  have hs1 : Balanced o c (subn excMarker excRep content).1 := by
    rw [hrw]
    exact balanced_subn (by decide) hE0 (prefOKb_spec hEp) hb
  have hs2 : Balanced o c (subn (iosGroupA1 ++ iosGroupB1)
      (iosGroupA1 ++ iosGroupIns1 ++ iosGroupB1) (subn excMarker excRep content).1).1 :=
    balanced_subn (by decide) h10 (prefOKb_spec h1p) hs1
  have hs3 := @balanced_subn o c kbGroupA1 kbGroupB1 kbGroupIns1 _
    (by decide) h20 (prefOKb_spec h2p) hs2
  exact hs3

/-- Run of `fix_project_v2.py` preserves balance of one bracket pair whenever all
three inserted texts are balanced with nonnegative leading segments. -/
theorem balanced_runV2 {o c : Char} {content : Str}
    (hE0 : bdelta o c (ios_exception ++ keyboard_exception) = 0)
    (hEp : prefOKb o c (ios_exception ++ keyboard_exception) = true)
    (h10 : bdelta o c iosGroupIns2 = 0)
    (h1p : prefOKb o c iosGroupIns2 = true)
    (h20 : bdelta o c kbGroupIns2 = 0)
    (h2p : prefOKb o c kbGroupIns2 = true)
    (hb : Balanced o c content) : Balanced o c (runV2 content).out := by
  have hrw : subn excMarker excRep content =
      subn (excMarker ++ []) (excMarker ++ (ios_exception ++ keyboard_exception) ++ [])
        content := by
    rw [List.append_nil, List.append_nil]
    unfold excRep
    rw [List.append_assoc]
  have hs1 : Balanced o c (v2Step1 content) := by
    unfold v2Step1
    by_cases hg : occursb ios_uuid content = true
    · rw [if_pos hg]
      exact hb
    · rw [if_neg hg, hrw]
      exact balanced_subn (by decide) hE0 (prefOKb_spec hEp) hb
  have hs2 : Balanced o c (subn (iosGroupA2 ++ iosGroupB2)
      (iosGroupA2 ++ iosGroupIns2 ++ iosGroupB2) (v2Step1 content)).1 :=
    balanced_subn (by decide) h10 (prefOKb_spec h1p) hs1
  have hs3 := @balanced_subn o c kbGroupA2 kbGroupB2 kbGroupIns2 _
    (by decide) h20 (prefOKb_spec h2p) hs2
  exact hs3

set_option maxRecDepth 16000 in
/-- C8: bracket balance is preserved by both scripts: every inserted block
has balanced braces and parentheses (with nonnegative leading segments), so
a content whose braces (resp. parentheses) are balanced is written back with
balanced braces (resp. parentheses) by either script. -/
theorem balance_preserved (content : Str) :
    (Balanced '\x7b' '\x7d' ios_exception ∧ Balanced '(' ')' ios_exception) ∧
    (Balanced '\x7b' '\x7d' keyboard_exception ∧ Balanced '(' ')' keyboard_exception) ∧
    (Balanced '\x7b' '\x7d' iosGroupIns2 ∧ Balanced '(' ')' iosGroupIns2) ∧
    (Balanced '\x7b' '\x7d' kbGroupIns2 ∧ Balanced '(' ')' kbGroupIns2) ∧
    (Balanced '\x7b' '\x7d' content →
      Balanced '\x7b' '\x7d' (runV1 content) ∧ Balanced '\x7b' '\x7d' (runV2 content).out) ∧
    (Balanced '(' ')' content →
      Balanced '(' ')' (runV1 content) ∧ Balanced '(' ')' (runV2 content).out) := by
  have hEb0 : bdelta '\x7b' '\x7d' (ios_exception ++ keyboard_exception) = 0 := by
    rw [ios_exception_eq, keyboard_exception_eq]; decide
  have hEbp : prefOKb '\x7b' '\x7d' (ios_exception ++ keyboard_exception) = true := by
    rw [ios_exception_eq, keyboard_exception_eq]; decide
  have hEq0 : bdelta '(' ')' (ios_exception ++ keyboard_exception) = 0 := by
    rw [ios_exception_eq, keyboard_exception_eq]; decide
  have hEqp : prefOKb '(' ')' (ios_exception ++ keyboard_exception) = true := by
    rw [ios_exception_eq, keyboard_exception_eq]; decide
  have g1b0 : bdelta '\x7b' '\x7d' iosGroupIns1 = 0 := by rw [iosGroupIns1_eq]; decide
  have g1bp : prefOKb '\x7b' '\x7d' iosGroupIns1 = true := by rw [iosGroupIns1_eq]; decide
  have g1q0 : bdelta '(' ')' iosGroupIns1 = 0 := by rw [iosGroupIns1_eq]; decide
  have g1qp : prefOKb '(' ')' iosGroupIns1 = true := by rw [iosGroupIns1_eq]; decide
  have k1b0 : bdelta '\x7b' '\x7d' kbGroupIns1 = 0 := by rw [kbGroupIns1_eq]; decide
  have k1bp : prefOKb '\x7b' '\x7d' kbGroupIns1 = true := by rw [kbGroupIns1_eq]; decide
  have k1q0 : bdelta '(' ')' kbGroupIns1 = 0 := by rw [kbGroupIns1_eq]; decide
  have k1qp : prefOKb '(' ')' kbGroupIns1 = true := by rw [kbGroupIns1_eq]; decide
  have g2b0 : bdelta '\x7b' '\x7d' iosGroupIns2 = 0 := by rw [iosGroupIns2_eq]; decide
  have g2bp : prefOKb '\x7b' '\x7d' iosGroupIns2 = true := by rw [iosGroupIns2_eq]; decide
  have g2q0 : bdelta '(' ')' iosGroupIns2 = 0 := by rw [iosGroupIns2_eq]; decide
  have g2qp : prefOKb '(' ')' iosGroupIns2 = true := by rw [iosGroupIns2_eq]; decide
  have k2b0 : bdelta '\x7b' '\x7d' kbGroupIns2 = 0 := by rw [kbGroupIns2_eq]; decide
  have k2bp : prefOKb '\x7b' '\x7d' kbGroupIns2 = true := by rw [kbGroupIns2_eq]; decide
  have k2q0 : bdelta '(' ')' kbGroupIns2 = 0 := by rw [kbGroupIns2_eq]; decide
  have k2qp : prefOKb '(' ')' kbGroupIns2 = true := by rw [kbGroupIns2_eq]; decide
  have iEb : Balanced '\x7b' '\x7d' ios_exception :=
    ⟨prefOKb_spec (by rw [ios_exception_eq]; decide), by rw [ios_exception_eq]; decide⟩
  have iEq : Balanced '(' ')' ios_exception :=
    ⟨prefOKb_spec (by rw [ios_exception_eq]; decide), by rw [ios_exception_eq]; decide⟩
  have kEb : Balanced '\x7b' '\x7d' keyboard_exception :=
    ⟨prefOKb_spec (by rw [keyboard_exception_eq]; decide),
      by rw [keyboard_exception_eq]; decide⟩
  have kEq : Balanced '(' ')' keyboard_exception :=
    ⟨prefOKb_spec (by rw [keyboard_exception_eq]; decide),
      by rw [keyboard_exception_eq]; decide⟩
  have g2b : Balanced '\x7b' '\x7d' iosGroupIns2 := ⟨prefOKb_spec g2bp, g2b0⟩
  have g2q : Balanced '(' ')' iosGroupIns2 := ⟨prefOKb_spec g2qp, g2q0⟩
  have k2b : Balanced '\x7b' '\x7d' kbGroupIns2 := ⟨prefOKb_spec k2bp, k2b0⟩
  have k2q : Balanced '(' ')' kbGroupIns2 := ⟨prefOKb_spec k2qp, k2q0⟩
  refine ⟨⟨iEb, iEq⟩, ⟨kEb, kEq⟩, ⟨g2b, g2q⟩, ⟨k2b, k2q⟩, ?_, ?_⟩
  · intro hb
    exact ⟨balanced_runV1 hEb0 hEbp g1b0 g1bp k1b0 k1bp hb,
      balanced_runV2 hEb0 hEbp g2b0 g2bp k2b0 k2bp hb⟩
  · intro hb
    exact ⟨balanced_runV1 hEq0 hEqp g1q0 g1qp k1q0 k1qp hb,
      balanced_runV2 hEq0 hEqp g2q0 g2qp k2q0 k2qp hb⟩

/-- Witness for C8, on the empty (trivially balanced) content. -/
theorem balance_preserved_witness :
    Balanced '\x7b' '\x7d' ([] : Str) ∧ Balanced '(' ')' ([] : Str) ∧
    Balanced '\x7b' '\x7d' (runV1 []) ∧ Balanced '\x7b' '\x7d' (runV2 []).out ∧
    Balanced '(' ')' (runV1 []) ∧ Balanced '(' ')' (runV2 []).out := by
  have hnil : ∀ o c : Char, Balanced o c ([] : Str) := by
    intro o c
    constructor
    · rintro p ⟨r, hr⟩
      obtain ⟨rfl, -⟩ := List.append_eq_nil.mp hr.symm
      simp [bdelta]
    · simp [bdelta]
  have hb := (balance_preserved []).2.2.2.2.1 (hnil _ _)
  have hq := (balance_preserved []).2.2.2.2.2 (hnil _ _)
  exact ⟨hnil _ _, hnil _ _, hb.1, hb.2, hq.1, hq.2⟩


/-- A run of the second script leaves `t` unchanged when the two group
patterns do not occur and any marker occurrence implies the iOS identifier
is present (so the guard blocks the insertion). -/
theorem runV2_fixed {t : Str}
    (hM : Sub excMarker t → Sub ios_uuid t)
    (h2 : ¬ Sub (iosGroupA2 ++ iosGroupB2) t)
    (h3 : ¬ Sub (kbGroupA2 ++ kbGroupB2) t) :
    (runV2 t).out = t := by
  have hs1 : v2Step1 t = t := by
    unfold v2Step1
    by_cases hg : occursb ios_uuid t = true
    · rw [if_pos hg]
    · rw [if_neg hg]
      have hnM : ¬ Sub excMarker t := fun h => hg (occursb_iff.mpr (hM h))
      rw [subn_no_match (by decide) hnM]
  have e2 := @subn_no_match _ (iosGroupA2 ++ iosGroupIns2 ++ iosGroupB2) _
    (by decide) h2
  have e3 := @subn_no_match _ (kbGroupA2 ++ kbGroupIns2 ++ kbGroupB2) _
    (by decide) h3
  simp only [runV2, hs1, e2, e3]

set_option maxRecDepth 16000 in
/-- C1: the second script is idempotent on content: running it twice on any
initial content yields the same final content as running it once.  On the
second run the identifier-presence guard blocks the exception-entry
insertion and the two group patterns no longer match. -/
theorem v2_idempotent (content : Str) :
    (runV2 (runV2 content).out).out = (runV2 content).out := by
  -- packaged overlap facts about the three substitutions
  have hIII2 : ∀ t, ¬ Sub (iosGroupA2 ++ iosGroupB2)
      (subn (iosGroupA2 ++ iosGroupB2) (iosGroupA2 ++ iosGroupIns2 ++ iosGroupB2) t).1 :=
    fun t => subn_no_pat (by decide) (by rw [iosGroupIns2_eq]; decide)
      (not_sub_of_occursb (by rw [iosGroupIns2_eq]; decide))
      (no_pfx_drop_of_all (by rw [iosGroupIns2_eq]; decide))
      (no_sfx_take_of_all (by rw [iosGroupIns2_eq]; decide))
  have hIII3 : ∀ t, ¬ Sub (kbGroupA2 ++ kbGroupB2)
      (subn (kbGroupA2 ++ kbGroupB2) (kbGroupA2 ++ kbGroupIns2 ++ kbGroupB2) t).1 :=
    fun t => subn_no_pat (by decide) (by rw [kbGroupIns2_eq]; decide)
      (not_sub_of_occursb (by rw [kbGroupIns2_eq]; decide))
      (no_pfx_drop_of_all (by rw [kbGroupIns2_eq]; decide))
      (no_sfx_take_of_all (by rw [kbGroupIns2_eq]; decide))
  have hII_P2_3 : ∀ t, ¬ Sub (iosGroupA2 ++ iosGroupB2) t →
      ¬ Sub (iosGroupA2 ++ iosGroupB2)
        (subn (kbGroupA2 ++ kbGroupB2) (kbGroupA2 ++ kbGroupIns2 ++ kbGroupB2) t).1 :=
    fun t ht => subn_no_new (by decide) (by rw [kbGroupIns2_eq]; decide)
      (not_sub_of_occursb (by rw [kbGroupIns2_eq]; decide))
      (no_pfx_drop_of_all (by rw [kbGroupIns2_eq]; decide))
      (no_sfx_take_of_all (by rw [kbGroupIns2_eq]; decide)) ht
  have hII_M_2 : ∀ t, ¬ Sub excMarker t →
      ¬ Sub excMarker
        (subn (iosGroupA2 ++ iosGroupB2) (iosGroupA2 ++ iosGroupIns2 ++ iosGroupB2) t).1 :=
    fun t ht => subn_no_new (by decide) (by rw [iosGroupIns2_eq]; decide)
      (not_sub_of_occursb (by rw [iosGroupIns2_eq]; decide))
      (no_pfx_drop_of_all (by rw [iosGroupIns2_eq]; decide))
      (no_sfx_take_of_all (by rw [iosGroupIns2_eq]; decide)) ht
  have hII_M_3 : ∀ t, ¬ Sub excMarker t →
      ¬ Sub excMarker
        (subn (kbGroupA2 ++ kbGroupB2) (kbGroupA2 ++ kbGroupIns2 ++ kbGroupB2) t).1 :=
    fun t ht => subn_no_new (by decide) (by rw [kbGroupIns2_eq]; decide)
      (not_sub_of_occursb (by rw [kbGroupIns2_eq]; decide))
      (no_pfx_drop_of_all (by rw [kbGroupIns2_eq]; decide))
      (no_sfx_take_of_all (by rw [kbGroupIns2_eq]; decide)) ht
  have hPres2 : ∀ t, Sub ios_uuid t → Sub ios_uuid
      (subn (iosGroupA2 ++ iosGroupB2) (iosGroupA2 ++ iosGroupIns2 ++ iosGroupB2) t).1 :=
    fun t h => subn_sub_preserved (by decide) (by rw [ios_uuid_eq]; decide)
      (by rw [ios_uuid_eq]; decide) (by rw [ios_uuid_eq]; decide)
      (not_sub_of_occursb (by rw [ios_uuid_eq]; decide)) h
  have hPres3 : ∀ t, Sub ios_uuid t → Sub ios_uuid
      (subn (kbGroupA2 ++ kbGroupB2) (kbGroupA2 ++ kbGroupIns2 ++ kbGroupB2) t).1 :=
    fun t h => subn_sub_preserved (by decide) (by rw [ios_uuid_eq]; decide)
      (by rw [ios_uuid_eq]; decide) (by rw [ios_uuid_eq]; decide)
      (not_sub_of_occursb (by rw [ios_uuid_eq]; decide)) h
  have hUinE : Sub ios_uuid excRep :=
    sub_of_occursb (by rw [ios_uuid_eq, excRep_eq]; decide)
  refine runV2_fixed ?_ ?_ ?_
  · -- any marker occurrence in the run-1 output implies the identifier is there
    show Sub excMarker
        (subn (kbGroupA2 ++ kbGroupB2) (kbGroupA2 ++ kbGroupIns2 ++ kbGroupB2)
          (subn (iosGroupA2 ++ iosGroupB2) (iosGroupA2 ++ iosGroupIns2 ++ iosGroupB2)
            (v2Step1 content)).1).1 →
      Sub ios_uuid
        (subn (kbGroupA2 ++ kbGroupB2) (kbGroupA2 ++ kbGroupIns2 ++ kbGroupB2)
          (subn (iosGroupA2 ++ iosGroupB2) (iosGroupA2 ++ iosGroupIns2 ++ iosGroupB2)
            (v2Step1 content)).1).1
    intro hM
    by_cases hg : occursb ios_uuid content = true
    · have h1 : Sub ios_uuid (v2Step1 content) := by
        unfold v2Step1
        rw [if_pos hg]
        exact sub_of_occursb hg
      exact hPres3 _ (hPres2 _ h1)
    · by_cases hMc : occursb excMarker content = true
      · have h1 : Sub ios_uuid (v2Step1 content) := by
          unfold v2Step1
          rw [if_neg hg]
          exact hUinE.transSub (subn_rep_sub (by decide) (sub_of_occursb hMc))
        exact hPres3 _ (hPres2 _ h1)
      · have hMf : occursb excMarker content = false := by
          cases hx : occursb excMarker content with
          | false => rfl
          | true => exact absurd hx hMc
        have h1 : v2Step1 content = content := by
          unfold v2Step1
          rw [if_neg hg, subn_no_match (by decide) (not_sub_of_occursb hMf)]
        have hm1 : ¬ Sub excMarker (v2Step1 content) := by
          rw [h1]
          exact not_sub_of_occursb hMf
        exact absurd hM (hII_M_3 _ (hII_M_2 _ hm1))
  · show ¬ Sub (iosGroupA2 ++ iosGroupB2)
        (subn (kbGroupA2 ++ kbGroupB2) (kbGroupA2 ++ kbGroupIns2 ++ kbGroupB2)
          (subn (iosGroupA2 ++ iosGroupB2) (iosGroupA2 ++ iosGroupIns2 ++ iosGroupB2)
            (v2Step1 content)).1).1
    exact hII_P2_3 _ (hIII2 _)
  · show ¬ Sub (kbGroupA2 ++ kbGroupB2)
        (subn (kbGroupA2 ++ kbGroupB2) (kbGroupA2 ++ kbGroupIns2 ++ kbGroupB2)
          (subn (iosGroupA2 ++ iosGroupB2) (iosGroupA2 ++ iosGroupIns2 ++ iosGroupB2)
            (v2Step1 content)).1).1
    exact hIII3 _

end Whispermate
